import Mathlib

/-!
Verification of the batch-enrichment core of the peptide pipeline
(`api_client.py`, `api_manager.py`).

The Python code is shallowly embedded: the per-key remote adapters become
functions from an explicit model of the network exchange to `Except`-values
(exceptions are explicit), the thread-pool batch loop becomes a fold over an
arbitrary completion order (a permutation of the submitted job indices), and
the pandas `DataFrame` becomes an ordered association list of named columns.
-/

/-! ### Python dict model

`results` in the batch loops and the per-service score dictionaries are
Python dicts.  We model them as association lists keeping insertion order:
assignment to a present key overwrites in place, a fresh key is appended. -/

/-- Model of Python dict lookup `m.get(k)` / `m[k]`. -/
def dget? {K : Type u} {β : Type v} [DecidableEq K] : List (K × β) → K → Option β
  | [], _ => none
  | p :: m, k => if p.1 = k then some p.2 else dget? m k

/-- Model of Python dict assignment `m[k] = v`: overwrite in place if the key
is present, otherwise append at the end (insertion order is preserved). -/
def dinsert {K : Type u} {β : Type v} [DecidableEq K] : List (K × β) → K → β → List (K × β)
  | [], k, v => [(k, v)]
  | p :: m, k, v => if p.1 = k then (k, v) :: m else p :: dinsert m k v

/-- The keys of a dict, in insertion order. -/
def dkeys {K : Type u} {β : Type v} (m : List (K × β)) : List K := m.map Prod.fst

theorem dkeys_nil {K : Type u} {β : Type v} : dkeys ([] : List (K × β)) = [] := rfl

theorem dkeys_cons {K : Type u} {β : Type v} (p : K × β) (m : List (K × β)) :
    dkeys (p :: m) = p.1 :: dkeys m := rfl

theorem dget?_dinsert {K : Type u} {β : Type v} [DecidableEq K]
    (m : List (K × β)) (k j : K) (v : β) :
    dget? (dinsert m k v) j = if j = k then some v else dget? m j := by
  induction m with
  | nil =>
    by_cases h : j = k
    · simp [dinsert, dget?, h]
    · have h' : ¬ k = j := fun hh => h hh.symm
      simp [dinsert, dget?, h, h']
  | cons p m ih =>
    by_cases hpk : p.1 = k
    · by_cases h : j = k
      · simp [dinsert, dget?, hpk, h]
      · have h' : ¬ k = j := fun hh => h hh.symm
        have hpj : ¬ p.1 = j := by rw [hpk]; exact h'
        simp [dinsert, dget?, hpk, h, h', hpj]
    · by_cases hpj : p.1 = j
      · have hj : ¬ j = k := fun hh => hpk (by rw [hpj, hh])
        simp [dinsert, dget?, hpk, hpj, hj]
      · simp [dinsert, dget?, hpk, hpj, ih]

theorem dkeys_dinsert {K : Type u} {β : Type v} [DecidableEq K]
    (m : List (K × β)) (k : K) (v : β) :
    dkeys (dinsert m k v) = if k ∈ dkeys m then dkeys m else dkeys m ++ [k] := by
  induction m with
  | nil => simp [dinsert, dkeys_nil, dkeys_cons]
  | cons p m ih =>
    by_cases hpk : p.1 = k
    · have : k ∈ dkeys (p :: m) := by simp [dkeys_cons, hpk.symm]
      simp [dinsert, dkeys_cons, hpk, this]
    · have hkp : ¬ k = p.1 := fun hh => hpk hh.symm
      by_cases hkm : k ∈ dkeys m
      · have : k ∈ dkeys (p :: m) := by simp [dkeys_cons, hkm]
        simp [dinsert, dkeys_cons, hpk, hkm, this, ih]
      · have : ¬ k ∈ dkeys (p :: m) := by simp [dkeys_cons, hkp, hkm]
        simp [dinsert, dkeys_cons, hpk, hkm, hkp, this, ih]

theorem mem_dkeys_dinsert {K : Type u} {β : Type v} [DecidableEq K]
    (m : List (K × β)) (k j : K) (v : β) :
    j ∈ dkeys (dinsert m k v) ↔ j ∈ dkeys m ∨ j = k := by
  rw [dkeys_dinsert]
  by_cases hkm : k ∈ dkeys m
  · simp [hkm]
    intro h
    rw [h]
    exact hkm
  · simp [hkm]

theorem dkeys_nodup_dinsert {K : Type u} {β : Type v} [DecidableEq K]
    (m : List (K × β)) (k : K) (v : β) (h : (dkeys m).Nodup) :
    (dkeys (dinsert m k v)).Nodup := by
  rw [dkeys_dinsert]
  by_cases hkm : k ∈ dkeys m
  · simpa [hkm] using h
  · simp [hkm, List.nodup_append, h, hkm]

theorem dget?_isSome_iff_mem_dkeys {K : Type u} {β : Type v} [DecidableEq K]
    (m : List (K × β)) (k : K) :
    (dget? m k).isSome = true ↔ k ∈ dkeys m := by
  induction m with
  | nil => simp [dget?, dkeys_nil]
  | cons p m ih =>
    by_cases hpk : p.1 = k
    · simp [dget?, dkeys_cons, hpk]
    · have hkp : ¬ k = p.1 := fun hh => hpk hh.symm
      simp [dget?, dkeys_cons, hpk, hkp, ih]

theorem length_eq_dkeys_length {K : Type u} {β : Type v} (m : List (K × β)) :
    m.length = (dkeys m).length := by
  simp [dkeys]

/-! ### Numeric parsing model

`float()` applied to regex matches, and the two fallback text scans:
`re.findall(r'[\d.]+', text)` (immunogenicity) and
`re.findall(r'(\d+\.?\d*)\s*nM', text, re.IGNORECASE)` (affinity). -/

/-- Character class `[\d.]` of the immunogenicity fallback regex. -/
def isNumDotClass (c : Char) : Bool := c.isDigit || c = '.'

/-- Numeric value of a list of ASCII digits, most significant first. -/
def digitsVal (ds : List Char) : ℕ := ds.foldl (fun n c => 10 * n + (c.toNat - 48)) 0

/-- Model of Python `float(s)` on strings drawn from digits and dots (the only
strings the fallback regexes can produce): it succeeds exactly when the string
is nonempty, contains at least one digit and at most one dot. -/
def pythonFloat? (cs : List Char) : Option ℚ :=
  if cs ≠ [] ∧ cs.all isNumDotClass = true ∧ cs.count '.' ≤ 1 ∧ cs.any Char.isDigit = true then
    let d1 := cs.takeWhile Char.isDigit
    let rest := cs.dropWhile Char.isDigit
    let d2 := match rest with
      | '.' :: r => r
      | _ => []
    some (mkRat (digitsVal (d1 ++ d2)) (10 ^ d2.length))
  else none

/-- First match of `re.findall(r'[\d.]+', text)`: the first maximal run of
digit-or-dot characters. -/
def firstNumDotRun : List Char → Option (List Char)
  | [] => none
  | c :: rest =>
    if isNumDotClass c then some (List.takeWhile isNumDotClass (c :: rest))
    else firstNumDotRun rest

/-- The whitespace class `\s` of the affinity fallback regex (ASCII part). -/
def wsChar (c : Char) : Bool := c = ' ' || c = '\t' || c = '\n' || c = '\r'

/-- After the numeric group, the affinity regex requires `\s*` then `nM`
case-insensitively. -/
def tailNM (cs : List Char) : Bool :=
  match cs.dropWhile wsChar with
  | c1 :: c2 :: _ => (c1 = 'n' || c1 = 'N') && (c2 = 'm' || c2 = 'M')
  | _ => false

/-- Backtracking of the greedy `\d*` after the optional dot: try the longest
fractional part first, shrinking until `\s*nM` matches.  `d1` is the integer
digit run, `d2` the digit run after the dot, `rest` the input after `d2`. -/
def fracGo (d1 d2 rest : List Char) : ℕ → Option (List Char)
  | 0 => if tailNM (d2 ++ rest) then some (d1 ++ ['.']) else none
  | j + 1 =>
    if tailNM (d2.drop (j + 1) ++ rest) then some (d1 ++ '.' :: d2.take (j + 1))
    else fracGo d1 d2 rest j

/-- Attempt to match `(\d+\.?\d*)\s*nM` at the head of the input, returning the
captured numeric group. -/
def matchNumNM : List Char → Option (List Char)
  | [] => none
  | c :: rest =>
    if c.isDigit then
      let d1 := List.takeWhile Char.isDigit (c :: rest)
      let r1 := List.dropWhile Char.isDigit (c :: rest)
      match r1 with
      | '.' :: r2 =>
        let d2 := r2.takeWhile Char.isDigit
        let r3 := r2.dropWhile Char.isDigit
        match fracGo d1 d2 r3 d2.length with
        | some g => some g
        | none => if tailNM r1 then some d1 else none
      | _ => if tailNM r1 then some d1 else none
    else none

/-- First match of the affinity fallback regex in the response text: scan
left to right for the first position where `matchNumNM` succeeds. -/
def firstNMMatch : List Char → Option (List Char)
  | [] => none
  | c :: rest =>
    match matchNumNM (c :: rest) with
    | some g => some g
    | none => firstNMMatch rest

/-! ### Network exchange and exception model

A single remote call either raises a `requests` exception (timeout, transport
error) or yields a response; `raise_for_status()` raises `HTTPError` for
status codes of 400 and above.  JSON field values are modelled by what
`float()` does to them: `some q` converts to `q`, `none` raises. -/

inductive ReqErr where
  | timeout
  | connError
  | httpError
deriving DecidableEq

inductive PyExc where
  | requestExc (e : ReqErr)
  | valueError
deriving DecidableEq

/-- Result of `session.post` / `session.get`: a raised exception or an HTTP
response. -/
inductive PostResult (ρ : Type) where
  | timeout
  | connError
  | resp (r : ρ)
deriving DecidableEq

/-- An IEDB response: status code, the JSON object that `response.json()`
yields (`none` when it raises, i.e. the body is not JSON), and the raw body
text used by the fallback scans. -/
structure HttpResponse where
  status : ℕ
  jsonFields : Option (List (String × Option ℚ))
  text : String
deriving DecidableEq

/-- The outer `except requests.exceptions.RequestException` /
`except Exception` pair of every adapter: any raised exception becomes a
returned `None`. -/
def handleExc {α : Type u} : Except PyExc (Option α) → Except PyExc (Option α)
  | Except.ok v => Except.ok v
  | Except.error _ => Except.ok none

/-- The inner `try` around `response.json()` and the field accesses: an
exception anywhere in it (body not JSON, or `float()` failing on the field
value) selects the free-text fallback; a JSON object that merely lacks both
fields falls through to `return None` without raising. -/
def jsonExtract (k1 k2 : String) : Option (List (String × Option ℚ)) → Except Unit (Option ℚ)
  | none => Except.error ()
  | some obj =>
    match dget? obj k1 with
    | some (some q) => Except.ok (some q)
    | some none => Except.error ()
    | none =>
      match dget? obj k2 with
      | some (some q) => Except.ok (some q)
      | some none => Except.error ()
      | none => Except.ok none

/-- Free-text fallback of `predict_immunogenicity`: first `[\d.]+` run,
`float()` it (a failure there escapes to the outer handler), keep it only if
it lies in `[0, 1]`. -/
def scanImmuno (text : String) : Except PyExc (Option ℚ) :=
  match firstNumDotRun text.toList with
  | none => Except.ok none
  | some m =>
    match pythonFloat? m with
    | none => Except.error PyExc.valueError
    | some q => Except.ok (if 0 ≤ q ∧ q ≤ 1 then some q else none)

/-- Free-text fallback of `predict_affinity`: first `(\d+\.?\d*)\s*nM` match,
returned unconditionally after `float()`. -/
def scanAffinity (text : String) : Except PyExc (Option ℚ) :=
  match firstNMMatch text.toList with
  | none => Except.ok none
  | some g =>
    match pythonFloat? g with
    | none => Except.error PyExc.valueError
    | some q => Except.ok (some q)

namespace IEDBClient

/-- Body of `IEDBClient.predict_immunogenicity` before the outer exception
handlers: post, `raise_for_status`, then the guarded parse with its fallback.
`APIManager._predict_immunogenicity_iedb` is line-for-line the same logic. -/
def predict_immunogenicity_body (net : PostResult HttpResponse) : Except PyExc (Option ℚ) :=
  match net with
  | PostResult.timeout => Except.error (PyExc.requestExc ReqErr.timeout)
  | PostResult.connError => Except.error (PyExc.requestExc ReqErr.connError)
  | PostResult.resp r =>
    if 400 ≤ r.status then Except.error (PyExc.requestExc ReqErr.httpError)
    else
      match jsonExtract "score" "immunogenicity_score" r.jsonFields with
      | Except.ok v => Except.ok v
      | Except.error _ => scanImmuno r.text

/-- `IEDBClient.predict_immunogenicity`: the body wrapped in the two outer
handlers, which turn every exception into a returned `None`. -/
def predict_immunogenicity (net : PostResult HttpResponse) : Except PyExc (Option ℚ) :=
  handleExc (predict_immunogenicity_body net)

/-- Body of `IEDBClient.predict_affinity` (`APIManager._predict_affinity_iedb`
is identical): fields `ic50` then `affinity`, fallback `nM` scan. -/
def predict_affinity_body (net : PostResult HttpResponse) : Except PyExc (Option ℚ) :=
  match net with
  | PostResult.timeout => Except.error (PyExc.requestExc ReqErr.timeout)
  | PostResult.connError => Except.error (PyExc.requestExc ReqErr.connError)
  | PostResult.resp r =>
    if 400 ≤ r.status then Except.error (PyExc.requestExc ReqErr.httpError)
    else
      match jsonExtract "ic50" "affinity" r.jsonFields with
      | Except.ok v => Except.ok v
      | Except.error _ => scanAffinity r.text

/-- `IEDBClient.predict_affinity` with its outer exception handlers. -/
def predict_affinity (net : PostResult HttpResponse) : Except PyExc (Option ℚ) :=
  handleExc (predict_affinity_body net)

end IEDBClient

/-! ### UniProt adapter -/

/-- What `UniProtClient.search_sequence` can hand back on success: the
`'found': False` dict, or the extracted entry fields. -/
inductive UniRes where
  | notFound
  | found (uid pname org : String)
deriving DecidableEq

/-- `.get('found', False)` of the returned dict. -/
def UniRes.foundFlag : UniRes → Bool
  | UniRes.notFound => false
  | UniRes.found _ _ _ => true

/-- `.get('uniprot_id', '')` of the returned dict. -/
def UniRes.uid : UniRes → String
  | UniRes.notFound => ""
  | UniRes.found u _ _ => u

/-- The JSON body of a UniProt search response: `none` entries model absent
nested fields, which the chained `.get(..., '')` calls default to `''`. -/
inductive UniBody where
  | noResults
  | entry (accession pname org : Option String)
deriving DecidableEq

structure UniResponse where
  status : ℕ
  body : Option UniBody
deriving DecidableEq

namespace UniProtClient

/-- Body of `UniProtClient.search_sequence` (`APIManager._search_uniprot` is
identical): get, `raise_for_status`, `response.json()` (raising when the body
is not JSON), then the guarded result extraction. -/
def search_sequence_body (net : PostResult UniResponse) : Except PyExc (Option UniRes) :=
  match net with
  | PostResult.timeout => Except.error (PyExc.requestExc ReqErr.timeout)
  | PostResult.connError => Except.error (PyExc.requestExc ReqErr.connError)
  | PostResult.resp r =>
    if 400 ≤ r.status then Except.error (PyExc.requestExc ReqErr.httpError)
    else
      match r.body with
      | none => Except.error PyExc.valueError
      | some UniBody.noResults => Except.ok (some UniRes.notFound)
      | some (UniBody.entry a n o) =>
          Except.ok (some (UniRes.found (a.getD "") (n.getD "") (o.getD "")))

/-- `UniProtClient.search_sequence` with its outer exception handlers. -/
def search_sequence (net : PostResult UniResponse) : Except PyExc (Option UniRes) :=
  handleExc (search_sequence_body net)

end UniProtClient

/-! ### Bounded dispatcher model

Each batch function submits one job per list element into the thread pool and
collects completions with `as_completed`.  A job is identified by its
submission index; its visible behaviour is either returning the adapter value
or raising (in which case `future.result()` re-raises and the collection loop
records `None` for the job's key).  The completion order is an arbitrary
permutation of the submitted indices. -/

inductive JobBeh (α : Type u) where
  | returns (v : Option α)
  | raises
deriving DecidableEq

/-- What the collection loop records for a job: the returned value, or `None`
when `future.result()` raised. -/
def JobBeh.recorded {α : Type u} : JobBeh α → Option α
  | JobBeh.returns v => v
  | JobBeh.raises => none

/-- The wrapper call as the pool sees it: an adapter that returned yields a
completed future, one that raised yields a future whose `result()` re-raises. -/
def jobBehOf {α : Type u} : Except PyExc (Option α) → JobBeh α
  | Except.ok v => JobBeh.returns v
  | Except.error _ => JobBeh.raises

/-- The `as_completed` collection loop shared by the three batch functions:
fold the completion order over the results dict, recording each job's outcome
under its own key. -/
def run_batch {K : Type u} {α : Type v} [DecidableEq K]
    (keys : List K) (beh : ℕ → JobBeh α) (order : List ℕ) : List (K × Option α) :=
  order.foldl (fun m i =>
    match keys[i]? with
    | some k => dinsert m k (JobBeh.recorded (beh i))
    | none => m) []

namespace APIClientManager

/-- `APIClientManager.predict_immunogenicity_batch`: one
`_predict_immunogenicity_wrapper` job per list element, collected by
`run_batch`.  `world i` is the network exchange seen by job `i`. -/
def predict_immunogenicity_batch {K : Type u} [DecidableEq K] (peptides : List K)
    (world : ℕ → PostResult HttpResponse) (order : List ℕ) : List (K × Option ℚ) :=
  run_batch peptides (fun i => jobBehOf (IEDBClient.predict_immunogenicity (world i))) order

/-- `APIClientManager.predict_affinity_batch`. -/
def predict_affinity_batch {K : Type u} [DecidableEq K] (peptides : List K)
    (world : ℕ → PostResult HttpResponse) (order : List ℕ) : List (K × Option ℚ) :=
  run_batch peptides (fun i => jobBehOf (IEDBClient.predict_affinity (world i))) order

/-- `APIClientManager.search_sequences_batch`. -/
def search_sequences_batch {K : Type u} [DecidableEq K] (peptides : List K)
    (world : ℕ → PostResult UniResponse) (order : List ℕ) : List (K × Option UniRes) :=
  run_batch peptides (fun i => jobBehOf (UniProtClient.search_sequence (world i))) order

end APIClientManager

/-- The `{pep: None for pep in peptides}` dict built by `APIManager`'s batch
functions when the whole pool block raises. -/
def uniformNone {K : Type u} {α : Type v} [DecidableEq K] (peptides : List K) :
    List (K × Option α) :=
  peptides.foldl (fun m p => dinsert m p none) []

namespace APIManager

/-- `APIManager.predict_immunogenicity_batch`: the pool block guarded by the
whole-batch `try`; `poolOk = false` models the guarded block raising. -/
def predict_immunogenicity_batch {K : Type u} [DecidableEq K] (peptides : List K)
    (world : ℕ → PostResult HttpResponse) (order : List ℕ) (poolOk : Bool) :
    List (K × Option ℚ) :=
  if poolOk then
    run_batch peptides (fun i => jobBehOf (IEDBClient.predict_immunogenicity (world i))) order
  else uniformNone peptides

/-- `APIManager.predict_affinity_batch` with its whole-batch `try`. -/
def predict_affinity_batch {K : Type u} [DecidableEq K] (peptides : List K)
    (world : ℕ → PostResult HttpResponse) (order : List ℕ) (poolOk : Bool) :
    List (K × Option ℚ) :=
  if poolOk then
    run_batch peptides (fun i => jobBehOf (IEDBClient.predict_affinity (world i))) order
  else uniformNone peptides

/-- `APIManager.search_sequences_batch` with its whole-batch `try`. -/
def search_sequences_batch {K : Type u} [DecidableEq K] (peptides : List K)
    (world : ℕ → PostResult UniResponse) (order : List ℕ) (poolOk : Bool) :
    List (K × Option UniRes) :=
  if poolOk then
    run_batch peptides (fun i => jobBehOf (UniProtClient.search_sequence (world i))) order
  else uniformNone peptides

end APIManager

/-! ### Pacing gate model

Each wrapper executes `time.sleep(self.request_delay)` and only then calls the
adapter.  A worker slot runs its jobs sequentially, so on one slot's timeline
the clock advances by the delay, then by the remote call's duration, job after
job.  `dispatchTimes delay start durations` lists the instants at which the
slot issues its remote calls. -/

def dispatchTimes (delay : ℚ) (start : ℚ) : List ℚ → List ℚ
  | [] => []
  | dur :: rest => (start + delay) :: dispatchTimes delay (start + delay + dur) rest

/-! ### DataFrame model

A pandas `DataFrame` as an ordered association list of named columns; a cell
is `none` for NaN/None.  Column assignment `df[name] = values` overwrites an
existing column in place and appends a new one at the end, exactly like the
dict model. -/

inductive PVal where
  | num (q : ℚ)
  | str (s : String)
  | pbool (b : Bool)
deriving DecidableEq

abbrev Cell := Option PVal

structure DF where
  cols : List (String × List Cell)
deriving DecidableEq

def DF.colNames (d : DF) : List String := dkeys d.cols

def DF.getCol? (d : DF) (n : String) : Option (List Cell) := dget? d.cols n

def DF.setCol (d : DF) (n : String) (c : List Cell) : DF := DF.mk (dinsert d.cols n c)

/-- `df.copy()`: in the pure model a value copy of the column list.  The
embedding of `enrich_dataframe` threads the caller's object separately from
this copy, so that every column assignment visibly targets the copy. -/
def DF.copy (d : DF) : DF := DF.mk d.cols

/-- The `peptide` column read by `df_result['peptide']`. -/
def peptideCol (d : DF) : List Cell := (d.getCol? "peptide").getD []

/-- A cell produced by `.map(scores)` over a batch-result dict: a missing key
maps to NaN, a `None` value to NaN, a float to a numeric cell. -/
def cellOfScore : Option (Option ℚ) → Cell
  | some (some q) => some (PVal.num q)
  | some none => none
  | none => none

/-- `df_result['peptide'].map(scores_dict)` for a numeric service column. -/
def mapColumn (peps : List Cell) (dict : List (Cell × Option ℚ)) : List Cell :=
  peps.map fun c => cellOfScore (dget? dict c)

/-- The lambda building `uniprot_found`: `info.get(p)` is falsy when the key
is missing or its value is `None`; otherwise `.get('found', False)`. -/
def uniFoundCell : Option (Option UniRes) → Cell
  | some (some u) => some (PVal.pbool u.foundFlag)
  | some none => some (PVal.pbool false)
  | none => some (PVal.pbool false)

/-- The lambda building `uniprot_id`: `''` unless a real entry was found. -/
def uniIdCell : Option (Option UniRes) → Cell
  | some (some u) => some (PVal.str u.uid)
  | some none => some (PVal.str "")
  | none => some (PVal.str "")

/-- The guard `'affinity_nm' not in df_result.columns or
df_result['affinity_nm'].isna().all()` deciding whether the affinity service
runs. -/
def affinityMissing (d : DF) : Bool :=
  !(decide ("affinity_nm" ∈ d.colNames)) ||
    ((d.getCol? "affinity_nm").getD []).all (fun c => c.isNone)

inductive Service where
  | immuno
  | affinity
  | uniprot
deriving DecidableEq

namespace APIClientManager

/-- The unconditional immunogenicity block of `enrich_dataframe`:
`df_result['iedb_immunogenicity'] = df_result['peptide'].map(scores)`. -/
def enrichStepImmuno (d : DF) (wI : ℕ → PostResult HttpResponse) (oI : List ℕ) : DF :=
  d.setCol "iedb_immunogenicity"
    (mapColumn (peptideCol d) (predict_immunogenicity_batch (peptideCol d) wI oI))

/-- The guarded affinity block of `enrich_dataframe`. -/
def enrichStepAffinity (d : DF) (wA : ℕ → PostResult HttpResponse) (oA : List ℕ) : DF :=
  if affinityMissing d then
    d.setCol "iedb_affinity_nm"
      (mapColumn (peptideCol d) (predict_affinity_batch (peptideCol d) wA oA))
  else d

/-- The opt-in UniProt block of `enrich_dataframe`: two derived columns. -/
def enrichStepUni (d : DF) (iu : Bool) (wU : ℕ → PostResult UniResponse) (oU : List ℕ) : DF :=
  if iu then
    (d.setCol "uniprot_found"
        ((peptideCol d).map fun c =>
          uniFoundCell (dget? (search_sequences_batch (peptideCol d) wU oU) c))).setCol
      "uniprot_id"
      ((peptideCol d).map fun c =>
        uniIdCell (dget? (search_sequences_batch (peptideCol d) wU oU) c))
  else d

/-- `APIClientManager.enrich_dataframe`.  The first component of the result is
the caller's DataFrame object after the call (the code never assigns to it:
it works on `df.copy()`), the second the raised `ValueError` or the returned
enriched frame together with the list of services that actually ran. -/
def enrich_dataframe (d : DF) (iu : Bool) (wI wA : ℕ → PostResult HttpResponse)
    (wU : ℕ → PostResult UniResponse) (oI oA oU : List ℕ) :
    DF × Except PyExc (DF × List Service) :=
  if "peptide" ∈ d.colNames then
    (d, Except.ok
      (enrichStepUni (enrichStepAffinity (enrichStepImmuno (DF.copy d) wI oI) wA oA) iu wU oU,
        Service.immuno ::
          ((if affinityMissing (enrichStepImmuno (DF.copy d) wI oI) then [Service.affinity]
            else []) ++
            (if iu then [Service.uniprot] else []))))
  else (d, Except.error PyExc.valueError)

end APIClientManager

/-! ### Result merger

One merge step is one service's column assignment
`df[col] = df['peptide'].map(outcomes)`; a whole enrichment is a fold of
merge steps over the service list. -/

structure SvcCol where
  name : String
  outcomes : List (Cell × Option ℚ)
deriving DecidableEq

def mergeService (d : DF) (s : SvcCol) : DF :=
  d.setCol s.name (mapColumn (peptideCol d) s.outcomes)

/-! ### Dispatcher lemmas -/

/-- One step of the collection loop. -/
def collectStep {K : Type u} {α : Type v} [DecidableEq K] (keys : List K) (beh : ℕ → JobBeh α)
    (m : List (K × Option α)) (i : ℕ) : List (K × Option α) :=
  match keys[i]? with
  | some k => dinsert m k (JobBeh.recorded (beh i))
  | none => m

theorem run_batch_eq_foldl {K : Type u} {α : Type v} [DecidableEq K]
    (keys : List K) (beh : ℕ → JobBeh α) (order : List ℕ) :
    run_batch keys beh order = order.foldl (collectStep keys beh) [] := rfl

theorem dget?_foldl_collectStep {K : Type u} {α : Type v} [DecidableEq K]
    (keys : List K) (beh : ℕ → JobBeh α) (order : List ℕ)
    (m : List (K × Option α)) (k : K) :
    dget? (order.foldl (collectStep keys beh) m) k =
      match (order.filter fun j => decide (keys[j]? = some k)).getLast? with
      | some j => some (JobBeh.recorded (beh j))
      | none => dget? m k := by
  induction order generalizing m with
  | nil => simp
  | cons i rest ih =>
    rw [List.foldl_cons, ih]
    by_cases hPi : keys[i]? = some k
    · cases hL : rest.filter (fun j => decide (keys[j]? = some k)) with
      | nil =>
        simp [List.filter_cons, hPi, hL, collectStep, dget?_dinsert]
      | cons a l =>
        have hne : (a :: l).getLast? ≠ none := by
          simp [List.getLast?_eq_none_iff]
        rcases hgl : (a :: l).getLast? with _ | j
        · exact absurd hgl hne
        · simp [List.filter_cons, hPi, hL, hgl]
    · cases hL : rest.filter (fun j => decide (keys[j]? = some k)) with
      | nil =>
        cases hKi : keys[i]? with
        | none => simp [List.filter_cons, hPi, hL, collectStep, hKi]
        | some k' =>
          have hk' : ¬ k = k' := by
            intro h
            exact hPi (by rw [hKi, h])
          have hk2 : ¬ k' = k := fun h => hk' h.symm
          simp [List.filter_cons, hPi, hL, collectStep, hKi, dget?_dinsert, hk', hk2]
      | cons a l =>
        have hne : (a :: l).getLast? ≠ none := by
          simp [List.getLast?_eq_none_iff]
        rcases hgl : (a :: l).getLast? with _ | j
        · exact absurd hgl hne
        · simp [List.filter_cons, hPi, hL, hgl]

theorem mem_dkeys_foldl_collectStep {K : Type u} {α : Type v} [DecidableEq K]
    (keys : List K) (beh : ℕ → JobBeh α) (order : List ℕ)
    (m : List (K × Option α)) (k : K) :
    k ∈ dkeys (order.foldl (collectStep keys beh) m) ↔
      k ∈ dkeys m ∨ ∃ i ∈ order, keys[i]? = some k := by
  induction order generalizing m with
  | nil => simp
  | cons i rest ih =>
    rw [List.foldl_cons, ih]
    cases hKi : keys[i]? with
    | none =>
      simp only [collectStep, hKi]
      constructor
      · rintro (h | ⟨j, hj, hjk⟩)
        · exact Or.inl h
        · exact Or.inr ⟨j, List.mem_cons_of_mem _ hj, hjk⟩
      · rintro (h | ⟨j, hj, hjk⟩)
        · exact Or.inl h
        · rcases List.mem_cons.mp hj with rfl | hj2
          · rw [hKi] at hjk
            exact absurd hjk (by simp)
          · exact Or.inr ⟨j, hj2, hjk⟩
    | some k' =>
      simp only [collectStep, hKi]
      rw [mem_dkeys_dinsert]
      constructor
      · rintro ((h | h) | ⟨j, hj, hjk⟩)
        · exact Or.inl h
        · refine Or.inr ⟨i, List.mem_cons_self i rest, ?_⟩
          rw [hKi, h]
        · exact Or.inr ⟨j, List.mem_cons_of_mem _ hj, hjk⟩
      · rintro (h | ⟨j, hj, hjk⟩)
        · exact Or.inl (Or.inl h)
        · rcases List.mem_cons.mp hj with rfl | hj2
          · rw [hKi] at hjk
            injection hjk with hh
            exact Or.inl (Or.inr hh.symm)
          · exact Or.inr ⟨j, hj2, hjk⟩

theorem nodup_dkeys_foldl_collectStep {K : Type u} {α : Type v} [DecidableEq K]
    (keys : List K) (beh : ℕ → JobBeh α) (order : List ℕ)
    (m : List (K × Option α)) (h : (dkeys m).Nodup) :
    (dkeys (order.foldl (collectStep keys beh) m)).Nodup := by
  induction order generalizing m with
  | nil => exact h
  | cons i rest ih =>
    rw [List.foldl_cons]
    refine ih _ ?_
    cases hKi : keys[i]? with
    | none => simpa [collectStep, hKi] using h
    | some k' =>
      simp only [collectStep, hKi]
      exact dkeys_nodup_dinsert _ _ _ h

theorem run_batch_length_of_nodup {α : Type v} (keys : List String)
    (beh : ℕ → JobBeh α) (order : List ℕ)
    (hnd : keys.Nodup) (hperm : order.Perm (List.range keys.length)) :
    (run_batch keys beh order).length = keys.length := by
  have hmem : ∀ k, k ∈ dkeys (run_batch keys beh order) ↔ k ∈ keys := by
    intro k
    rw [run_batch_eq_foldl, mem_dkeys_foldl_collectStep]
    simp only [dkeys_nil, List.not_mem_nil, false_or]
    constructor
    · rintro ⟨i, _, hik⟩
      exact List.mem_iff_getElem?.mpr ⟨i, hik⟩
    · intro hk
      rcases List.mem_iff_getElem?.mp hk with ⟨i, hik⟩
      have hi : i < keys.length := (List.getElem?_eq_some_iff.mp hik).1
      exact ⟨i, (hperm.mem_iff).mpr (List.mem_range.mpr hi), hik⟩
  have hnd2 : (dkeys (run_batch keys beh order)).Nodup := by
    rw [run_batch_eq_foldl]
    exact nodup_dkeys_foldl_collectStep _ _ _ _ (by simp [dkeys_nil])
  have hp : (dkeys (run_batch keys beh order)).Perm keys :=
    (List.perm_ext_iff_of_nodup hnd2 hnd).mpr hmem
  rw [length_eq_dkeys_length, hp.length_eq]

theorem run_batch_isSome_of_mem {α : Type v} (keys : List String)
    (beh : ℕ → JobBeh α) (order : List ℕ) (k : String)
    (hperm : order.Perm (List.range keys.length)) (hk : k ∈ keys) :
    (dget? (run_batch keys beh order) k).isSome = true := by
  rw [dget?_isSome_iff_mem_dkeys, run_batch_eq_foldl, mem_dkeys_foldl_collectStep]
  rcases List.mem_iff_getElem?.mp hk with ⟨i, hik⟩
  have hi : i < keys.length := (List.getElem?_eq_some_iff.mp hik).1
  exact Or.inr ⟨i, (hperm.mem_iff).mpr (List.mem_range.mpr hi), hik⟩

theorem dget?_foldl_uniform {K : Type u} {α : Type v} [DecidableEq K]
    (peps : List K) (m : List (K × Option α)) (k : K) :
    dget? (peps.foldl (fun m p => dinsert m p none) m) k =
      if k ∈ peps then some none else dget? m k := by
  induction peps generalizing m with
  | nil => simp
  | cons p rest ih =>
    rw [List.foldl_cons, ih]
    by_cases hkr : k ∈ rest
    · simp [hkr]
    · by_cases hkp : k = p
      · simp [hkr, hkp, dget?_dinsert]
      · simp [hkr, hkp, dget?_dinsert]

theorem dget?_uniformNone {K : Type u} {α : Type v} [DecidableEq K] (peps : List K) (k : K) :
    dget? (uniformNone (α := α) peps) k = if k ∈ peps then some none else none := by
  rw [uniformNone, dget?_foldl_uniform]
  simp [dget?]

theorem mem_dkeys_foldl_uniform {K : Type u} {α : Type v} [DecidableEq K]
    (peps : List K) (m : List (K × Option α)) (k : K) :
    k ∈ dkeys (peps.foldl (fun m p => dinsert m p none) m) ↔ k ∈ dkeys m ∨ k ∈ peps := by
  induction peps generalizing m with
  | nil => simp
  | cons p rest ih =>
    rw [List.foldl_cons, ih, mem_dkeys_dinsert]
    constructor
    · rintro ((h | h) | h)
      · exact Or.inl h
      · exact Or.inr (by simp [h])
      · exact Or.inr (List.mem_cons_of_mem _ h)
    · rintro (h | h)
      · exact Or.inl (Or.inl h)
      · rcases List.mem_cons.mp h with rfl | h2
        · exact Or.inl (Or.inr rfl)
        · exact Or.inr h2

theorem nodup_dkeys_foldl_uniform {K : Type u} {α : Type v} [DecidableEq K]
    (peps : List K) (m : List (K × Option α)) (h : (dkeys m).Nodup) :
    (dkeys (peps.foldl (fun m p => dinsert m p none) m)).Nodup := by
  induction peps generalizing m with
  | nil => exact h
  | cons p rest ih =>
    rw [List.foldl_cons]
    exact ih _ (dkeys_nodup_dinsert _ _ _ h)

theorem uniformNone_length {K : Type u} {α : Type v} [DecidableEq K] (peps : List K) :
    (uniformNone (α := α) peps).length = peps.dedup.length := by
  have hmem : ∀ k, k ∈ dkeys (uniformNone (α := α) peps) ↔ k ∈ peps.dedup := by
    intro k
    rw [uniformNone, mem_dkeys_foldl_uniform]
    simp [dkeys_nil, List.mem_dedup]
  have hnd : (dkeys (uniformNone (α := α) peps)).Nodup := by
    rw [uniformNone]
    exact nodup_dkeys_foldl_uniform _ _ (by simp [dkeys_nil])
  have hp : (dkeys (uniformNone (α := α) peps)).Perm peps.dedup :=
    (List.perm_ext_iff_of_nodup hnd peps.nodup_dedup).mpr hmem
  rw [length_eq_dkeys_length, hp.length_eq]

theorem run_batch_length_dedup {α : Type v} (keys : List String)
    (beh : ℕ → JobBeh α) (order : List ℕ)
    (hperm : order.Perm (List.range keys.length)) :
    (run_batch keys beh order).length = keys.dedup.length := by
  have hmem : ∀ k, k ∈ dkeys (run_batch keys beh order) ↔ k ∈ keys.dedup := by
    intro k
    rw [run_batch_eq_foldl, mem_dkeys_foldl_collectStep]
    simp only [dkeys_nil, List.not_mem_nil, false_or, List.mem_dedup]
    constructor
    · rintro ⟨i, _, hik⟩
      exact List.mem_iff_getElem?.mpr ⟨i, hik⟩
    · intro hk
      rcases List.mem_iff_getElem?.mp hk with ⟨i, hik⟩
      have hi : i < keys.length := (List.getElem?_eq_some_iff.mp hik).1
      exact ⟨i, (hperm.mem_iff).mpr (List.mem_range.mpr hi), hik⟩
  have hnd2 : (dkeys (run_batch keys beh order)).Nodup := by
    rw [run_batch_eq_foldl]
    exact nodup_dkeys_foldl_collectStep _ _ _ _ (by simp [dkeys_nil])
  have hp : (dkeys (run_batch keys beh order)).Perm keys.dedup :=
    (List.perm_ext_iff_of_nodup hnd2 keys.nodup_dedup).mpr hmem
  rw [length_eq_dkeys_length, hp.length_eq]

theorem filter_eq_singleton_of_unique {p : ℕ → Bool} (order : List ℕ) (i : ℕ)
    (hnd : order.Nodup) (hi : i ∈ order) (huniq : ∀ j ∈ order, p j = true → j = i)
    (hpi : p i = true) : order.filter p = [i] := by
  induction order with
  | nil => cases hi
  | cons a rest ih =>
    rcases List.mem_cons.mp hi with rfl | hir
    · rw [List.filter_cons, if_pos hpi]
      have hrest : rest.filter p = [] := by
        rw [List.filter_eq_nil_iff]
        intro j hj hpj
        have := huniq j (List.mem_cons_of_mem _ hj) hpj
        subst this
        exact (List.nodup_cons.mp hnd).1 hj
      rw [hrest]
    · have hpa : ¬ p a = true := by
        intro hpa
        have := huniq a (List.mem_cons_self a rest) hpa
        subst this
        exact (List.nodup_cons.mp hnd).1 hir
      rw [List.filter_cons, if_neg hpa]
      exact ih (List.nodup_cons.mp hnd).2 hir
        (fun j hj hpj => huniq j (List.mem_cons_of_mem _ hj) hpj)

/-- C1: for every batch call over a list of unique peptide keys, the returned
mapping has exactly one entry per input key — every key ends up with a
recorded outcome no matter which per-key jobs fail — for any completion order
of the submitted jobs.  Stated for the shared collection loop `run_batch`
with an arbitrary per-job behaviour, and instantiated to the six named batch
functions of `APIClientManager` and `APIManager`. -/
theorem batch_complete_per_key {α : Type} (keys : List String) (beh : ℕ → JobBeh α)
    (order : List ℕ) (wI wA : ℕ → PostResult HttpResponse) (wU : ℕ → PostResult UniResponse)
    (poolOk : Bool) (hnd : keys.Nodup) (hperm : order.Perm (List.range keys.length)) :
    ((run_batch keys beh order).length = keys.length ∧
      ∀ k ∈ keys, (dget? (run_batch keys beh order) k).isSome = true) ∧
    (APIClientManager.predict_immunogenicity_batch keys wI order).length = keys.length ∧
    (APIClientManager.predict_affinity_batch keys wA order).length = keys.length ∧
    (APIClientManager.search_sequences_batch keys wU order).length = keys.length ∧
    (APIManager.predict_immunogenicity_batch keys wI order poolOk).length = keys.length ∧
    (APIManager.predict_affinity_batch keys wA order poolOk).length = keys.length ∧
    (APIManager.search_sequences_batch keys wU order poolOk).length = keys.length := by
  have hu : ∀ (β : Type), (uniformNone (α := β) keys).length = keys.length := by
    intro β
    rw [uniformNone_length, List.dedup_eq_self.mpr hnd]
  refine ⟨⟨run_batch_length_of_nodup keys beh order hnd hperm,
      fun k hk => run_batch_isSome_of_mem keys beh order k hperm hk⟩, ?_, ?_, ?_, ?_, ?_, ?_⟩
  · exact run_batch_length_of_nodup keys _ order hnd hperm
  · exact run_batch_length_of_nodup keys _ order hnd hperm
  · exact run_batch_length_of_nodup keys _ order hnd hperm
  · cases poolOk
    · simpa [APIManager.predict_immunogenicity_batch] using hu ℚ
    · simpa [APIManager.predict_immunogenicity_batch] using
        run_batch_length_of_nodup keys _ order hnd hperm
  · cases poolOk
    · simpa [APIManager.predict_affinity_batch] using hu ℚ
    · simpa [APIManager.predict_affinity_batch] using
        run_batch_length_of_nodup keys _ order hnd hperm
  · cases poolOk
    · simpa [APIManager.search_sequences_batch] using hu UniRes
    · simpa [APIManager.search_sequences_batch] using
        run_batch_length_of_nodup keys _ order hnd hperm

theorem batch_complete_per_key_witness :
    (["SIINFEKL", "GILGFVFTL"] : List String).Nodup ∧
      List.Perm [1, 0] (List.range 2) ∧
      (run_batch ["SIINFEKL", "GILGFVFTL"] (fun _ => (JobBeh.raises : JobBeh ℚ)) [1, 0]).length
          = 2 ∧
      (dget? (run_batch ["SIINFEKL", "GILGFVFTL"] (fun _ => (JobBeh.raises : JobBeh ℚ)) [1, 0])
          "SIINFEKL").isSome = true :=
  ⟨by decide, by decide,
    (batch_complete_per_key ["SIINFEKL", "GILGFVFTL"] (fun _ => (JobBeh.raises : JobBeh ℚ))
        [1, 0] (fun _ => PostResult.timeout) (fun _ => PostResult.timeout)
        (fun _ => PostResult.timeout) true (by decide) (by decide)).1.1,
    (batch_complete_per_key ["SIINFEKL", "GILGFVFTL"] (fun _ => (JobBeh.raises : JobBeh ℚ))
        [1, 0] (fun _ => PostResult.timeout) (fun _ => PostResult.timeout)
        (fun _ => PostResult.timeout) true (by decide) (by decide)).1.2 "SIINFEKL"
      (by decide)⟩

/-- C4: in a batch over unique keys, each key's recorded outcome is exactly
its own job's outcome — a failing or raising job is recorded as `None` against
its key only, while every other key keeps the value its own job produced, for
any completion order.  Failures therefore never cancel sibling jobs or abort
the batch. -/
theorem partial_failure_containment {α : Type} (keys : List String) (beh : ℕ → JobBeh α)
    (order : List ℕ) (hnd : keys.Nodup) (hperm : order.Perm (List.range keys.length)) :
    ∀ i k, keys[i]? = some k →
      dget? (run_batch keys beh order) k = some (JobBeh.recorded (beh i)) := by
  intro i k hik
  have hi : i < keys.length := (List.getElem?_eq_some_iff.mp hik).1
  rw [run_batch_eq_foldl, dget?_foldl_collectStep]
  have hfilter : order.filter (fun j => decide (keys[j]? = some k)) = [i] := by
    apply filter_eq_singleton_of_unique
    · exact hperm.nodup_iff.mpr (List.nodup_range _)
    · exact hperm.mem_iff.mpr (List.mem_range.mpr hi)
    · intro j hj hpj
      have hjn : j < keys.length := List.mem_range.mp (hperm.mem_iff.mp hj)
      rw [decide_eq_true_iff] at hpj
      rw [List.getElem?_eq_getElem hjn] at hpj
      rw [List.getElem?_eq_getElem hi] at hik
      injection hpj with hpj
      injection hik with hik
      exact (hnd.getElem_inj_iff).mp (by rw [hpj, hik])
    · rw [decide_eq_true_iff]
      exact hik
  rw [hfilter]
  simp

theorem partial_failure_containment_witness :
    (["AAA", "BBB", "CCC"] : List String).Nodup ∧
      List.Perm [2, 0, 1] (List.range 3) ∧
      (["AAA", "BBB", "CCC"] : List String)[1]? = some "BBB" ∧
      dget?
          (run_batch ["AAA", "BBB", "CCC"]
            (fun i => if i = 1 then JobBeh.raises else JobBeh.returns (some (i : ℚ)))
            [2, 0, 1])
          "BBB" = some none :=
  ⟨by decide, by decide, by decide,
    partial_failure_containment ["AAA", "BBB", "CCC"]
      (fun i => if i = 1 then JobBeh.raises else JobBeh.returns (some (i : ℚ)))
      [2, 0, 1] (by decide) (by decide) 1 "BBB" (by decide)⟩

/-- C9: with duplicate peptides in the input list the batch still submits one
job per list element (`run_batch` folds over every submitted index), but the
returned dict has exactly one entry per distinct peptide — its length is the
dedup length, so it can be shorter than the input — and each key's recorded
value is that of the job for it that completed last. -/
theorem duplicate_keys_batch {α : Type} (keys : List String) (beh : ℕ → JobBeh α)
    (order : List ℕ) (hperm : order.Perm (List.range keys.length)) :
    (run_batch keys beh order).length = keys.dedup.length ∧
      ∀ k, dget? (run_batch keys beh order) k =
        ((order.filter fun j => decide (keys[j]? = some k)).getLast?).map
          (fun j => JobBeh.recorded (beh j)) := by
  refine ⟨run_batch_length_dedup keys beh order hperm, fun k => ?_⟩
  rw [run_batch_eq_foldl, dget?_foldl_collectStep]
  cases (order.filter fun j => decide (keys[j]? = some k)).getLast? <;> simp [dget?]

theorem duplicate_keys_batch_witness :
    List.Perm [0, 1, 2] (List.range 3) ∧
      (run_batch ["AAA", "BBB", "AAA"] (fun i => JobBeh.returns (some (i : ℚ)))
          [0, 1, 2]).length = (["AAA", "BBB", "AAA"] : List String).dedup.length ∧
      dget? (run_batch ["AAA", "BBB", "AAA"] (fun i => JobBeh.returns (some (i : ℚ)))
          [0, 1, 2]) "AAA" = some (some 2) ∧
      (run_batch ["AAA", "BBB", "AAA"] (fun i => JobBeh.returns (some (i : ℚ)))
          [0, 1, 2]).length < (["AAA", "BBB", "AAA"] : List String).length :=
  ⟨by decide,
    (duplicate_keys_batch ["AAA", "BBB", "AAA"] (fun i => JobBeh.returns (some (i : ℚ)))
        [0, 1, 2] (by decide)).1,
    by decide, by decide⟩

/-- C5: when the whole pool block of an `APIManager` batch raises
(`poolOk = false`), the call does not propagate the exception but returns the
uniform dict assigning the failure sentinel `None` to every input key and
nothing to any other key, for all three services. -/
theorem service_outage_uniform_failure (peptides : List String)
    (wI wA : ℕ → PostResult HttpResponse) (wU : ℕ → PostResult UniResponse)
    (order : List ℕ) (k : String) :
    dget? (APIManager.predict_immunogenicity_batch peptides wI order false) k =
        (if k ∈ peptides then some none else none) ∧
      dget? (APIManager.predict_affinity_batch peptides wA order false) k =
        (if k ∈ peptides then some none else none) ∧
      dget? (APIManager.search_sequences_batch peptides wU order false) k =
        (if k ∈ peptides then some none else none) := by
  refine ⟨?_, ?_, ?_⟩ <;>
    simp [APIManager.predict_immunogenicity_batch, APIManager.predict_affinity_batch,
      APIManager.search_sequences_batch, dget?_uniformNone]

theorem handleExc_ok {α : Type u} (e : Except PyExc (Option α)) :
    ∃ v, handleExc e = Except.ok v := by
  cases e with
  | ok v => exact ⟨v, rfl⟩
  | error _ => exact ⟨none, rfl⟩

/-- C2 counterexample: three different failure classes — a timeout, a
transport error, and a remote rejection (HTTP 500) — all produce the
identical outcome `None`; the returned failure carries no reason tag at all,
so it is not `Failure` tagged with exactly one of the four reasons. -/
theorem adapter_failure_untagged_counterexample :
    IEDBClient.predict_immunogenicity PostResult.timeout = Except.ok none ∧
      IEDBClient.predict_immunogenicity PostResult.connError = Except.ok none ∧
      IEDBClient.predict_immunogenicity
          (PostResult.resp (HttpResponse.mk 500 none "server error")) = Except.ok none ∧
      IEDBClient.predict_immunogenicity PostResult.timeout =
        IEDBClient.predict_immunogenicity
          (PostResult.resp (HttpResponse.mk 500 none "server error")) := by
  refine ⟨rfl, rfl, rfl, rfl⟩

/-- C2 (amended): every single-key adapter call catches all errors at its own
boundary and returns without raising — no exception crosses into the
batch machinery — but the failure outcome is the single untagged sentinel
`None`: timeouts, transport errors, HTTP rejections and unparsable responses
are all mapped to that same sentinel rather than to distinct reason tags. -/
theorem adapter_catches_all_errors_amended :
    (∀ n1 : PostResult HttpResponse, ∃ v, IEDBClient.predict_immunogenicity n1 = Except.ok v) ∧
      (∀ n2 : PostResult HttpResponse, ∃ v, IEDBClient.predict_affinity n2 = Except.ok v) ∧
      (∀ n3 : PostResult UniResponse, ∃ v, UniProtClient.search_sequence n3 = Except.ok v) ∧
      IEDBClient.predict_immunogenicity PostResult.timeout = Except.ok none ∧
      IEDBClient.predict_immunogenicity PostResult.connError = Except.ok none ∧
      (∀ r : HttpResponse, 400 ≤ r.status →
        IEDBClient.predict_immunogenicity (PostResult.resp r) = Except.ok none) ∧
      (∀ r : HttpResponse, r.status < 400 → r.jsonFields = none →
        firstNumDotRun r.text.toList = none →
        IEDBClient.predict_immunogenicity (PostResult.resp r) = Except.ok none) := by
  refine ⟨fun n1 => handleExc_ok _, fun n2 => handleExc_ok _, fun n3 => handleExc_ok _,
    rfl, rfl, ?_, ?_⟩
  · intro r hr
    simp [IEDBClient.predict_immunogenicity, IEDBClient.predict_immunogenicity_body,
      handleExc, hr]
  · intro r hlt hj hscan
    simp only [String.toList] at hscan
    simp [IEDBClient.predict_immunogenicity, IEDBClient.predict_immunogenicity_body,
      handleExc, jsonExtract, scanImmuno, Nat.not_le.mpr hlt, hj, hscan]

theorem adapter_catches_all_errors_amended_witness :
    400 ≤ 500 ∧
      IEDBClient.predict_immunogenicity
          (PostResult.resp (HttpResponse.mk 500 (some [("score", some 1)]) "0.9"))
          = Except.ok none :=
  ⟨by decide,
    adapter_catches_all_errors_amended.2.2.2.2.2.1
      (HttpResponse.mk 500 (some [("score", some 1)]) "0.9") (by decide)⟩

instance {ε : Type u} {α : Type v} [DecidableEq ε] [DecidableEq α] :
    DecidableEq (Except ε α) := fun a b =>
  match a, b with
  | Except.ok x, Except.ok y => decidable_of_iff (x = y) (by simp)
  | Except.error x, Except.error y => decidable_of_iff (x = y) (by simp)
  | Except.ok _, Except.error _ => isFalse (by simp)
  | Except.error _, Except.ok _ => isFalse (by simp)

/-- C3 counterexample: a well-formed JSON response that merely lacks both
documented fields ('score', 'immunogenicity_score') is reported as failure
WITHOUT consulting the free-text scan, even though the scan would have
extracted a value from the body — so the documented ordered fallback chain
(primary field, secondary field, then text scan, then give up) does not hold
as stated. -/
theorem parse_fallback_skipped_counterexample :
    IEDBClient.predict_immunogenicity
        (PostResult.resp (HttpResponse.mk 200 (some [("status", some 1)]) "score: 0.7"))
        = Except.ok none ∧
      scanImmuno "score: 0.7" = Except.ok (some (mkRat 7 10)) := by
  refine ⟨by decide, by decide⟩

/-- C3 (amended): the adapter tries the primary structured field, then the
secondary documented field; the bounded free-text numeric scan is consulted
only when reading the structured payload raises — the body is not JSON, or
`float()` fails on a present field value.  When the body parses as JSON but
merely lacks both fields, the adapter gives up and reports failure without
running the scan, regardless of the response text.  Stated for both the
immunogenicity adapter ('score' / 'immunogenicity_score') and the affinity
adapter ('ic50' / 'affinity'). -/
theorem parse_fallback_order_amended :
    (∀ (r : HttpResponse) (obj : List (String × Option ℚ)) (q : ℚ), r.status < 400 →
        r.jsonFields = some obj → dget? obj "score" = some (some q) →
        IEDBClient.predict_immunogenicity (PostResult.resp r) = Except.ok (some q)) ∧
      (∀ (r : HttpResponse) (obj : List (String × Option ℚ)) (q : ℚ), r.status < 400 →
        r.jsonFields = some obj → dget? obj "score" = none →
        dget? obj "immunogenicity_score" = some (some q) →
        IEDBClient.predict_immunogenicity (PostResult.resp r) = Except.ok (some q)) ∧
      (∀ r : HttpResponse, r.status < 400 → r.jsonFields = none →
        IEDBClient.predict_immunogenicity (PostResult.resp r) = handleExc (scanImmuno r.text)) ∧
      (∀ (r : HttpResponse) (obj : List (String × Option ℚ)), r.status < 400 →
        r.jsonFields = some obj → dget? obj "score" = some none →
        IEDBClient.predict_immunogenicity (PostResult.resp r) = handleExc (scanImmuno r.text)) ∧
      (∀ (r : HttpResponse) (obj : List (String × Option ℚ)), r.status < 400 →
        r.jsonFields = some obj → dget? obj "score" = none →
        dget? obj "immunogenicity_score" = none →
        IEDBClient.predict_immunogenicity (PostResult.resp r) = Except.ok none) ∧
      (∀ (r : HttpResponse) (obj : List (String × Option ℚ)) (q : ℚ), r.status < 400 →
        r.jsonFields = some obj → dget? obj "ic50" = some (some q) →
        IEDBClient.predict_affinity (PostResult.resp r) = Except.ok (some q)) ∧
      (∀ (r : HttpResponse) (obj : List (String × Option ℚ)), r.status < 400 →
        r.jsonFields = some obj → dget? obj "ic50" = none →
        dget? obj "affinity" = none →
        IEDBClient.predict_affinity (PostResult.resp r) = Except.ok none) ∧
      (∀ r : HttpResponse, r.status < 400 → r.jsonFields = none →
        IEDBClient.predict_affinity (PostResult.resp r) = handleExc (scanAffinity r.text)) := by
  refine ⟨?_, ?_, ?_, ?_, ?_, ?_, ?_, ?_⟩
  · intro r obj q hlt hj hs
    simp [IEDBClient.predict_immunogenicity, IEDBClient.predict_immunogenicity_body,
      handleExc, jsonExtract, Nat.not_le.mpr hlt, hj, hs]
  · intro r obj q hlt hj hs hs2
    simp [IEDBClient.predict_immunogenicity, IEDBClient.predict_immunogenicity_body,
      handleExc, jsonExtract, Nat.not_le.mpr hlt, hj, hs, hs2]
  · intro r hlt hj
    simp [IEDBClient.predict_immunogenicity, IEDBClient.predict_immunogenicity_body,
      jsonExtract, Nat.not_le.mpr hlt, hj]
  · intro r obj hlt hj hs
    simp [IEDBClient.predict_immunogenicity, IEDBClient.predict_immunogenicity_body,
      jsonExtract, Nat.not_le.mpr hlt, hj, hs]
  · intro r obj hlt hj hs hs2
    simp [IEDBClient.predict_immunogenicity, IEDBClient.predict_immunogenicity_body,
      handleExc, jsonExtract, Nat.not_le.mpr hlt, hj, hs, hs2]
  · intro r obj q hlt hj hs
    simp [IEDBClient.predict_affinity, IEDBClient.predict_affinity_body,
      handleExc, jsonExtract, Nat.not_le.mpr hlt, hj, hs]
  · intro r obj hlt hj hs hs2
    simp [IEDBClient.predict_affinity, IEDBClient.predict_affinity_body,
      handleExc, jsonExtract, Nat.not_le.mpr hlt, hj, hs, hs2]
  · intro r hlt hj
    simp [IEDBClient.predict_affinity, IEDBClient.predict_affinity_body,
      jsonExtract, Nat.not_le.mpr hlt, hj]

theorem parse_fallback_order_amended_witness :
    (200 : ℕ) < 400 ∧
      dget? [("other", (some 5 : Option ℚ))] "score" = none ∧
      dget? [("other", (some 5 : Option ℚ))] "immunogenicity_score" = none ∧
      IEDBClient.predict_immunogenicity
          (PostResult.resp (HttpResponse.mk 200 (some [("other", some 5)]) "0.7"))
          = Except.ok none :=
  ⟨by decide, by decide, by decide,
    parse_fallback_order_amended.2.2.2.2.1
      (HttpResponse.mk 200 (some [("other", some 5)]) "0.7")
      [("other", some 5)] (by decide) rfl (by decide) (by decide)⟩

theorem dispatchTimes_gap (delay : ℚ) (ds : List ℚ) :
    ∀ (start : ℚ) (i : ℕ) (t t' : ℚ), (∀ x ∈ ds, 0 ≤ x) →
      (dispatchTimes delay start ds)[i]? = some t →
      (dispatchTimes delay start ds)[i + 1]? = some t' → t + delay ≤ t' := by
  induction ds with
  | nil =>
    intro start i t t' _ h _
    simp [dispatchTimes] at h
  | cons dur rest ih =>
    intro start i t t' hpos ht ht'
    cases i with
    | zero =>
      cases rest with
      | nil => simp [dispatchTimes] at ht'
      | cons d2 r2 =>
        simp [dispatchTimes] at ht ht'
        have hdur : 0 ≤ dur := hpos dur (List.mem_cons_self _ _)
        rw [← ht, ← ht']
        linarith
    | succ j =>
      simp only [dispatchTimes, List.getElem?_cons_succ] at ht ht'
      exact ih (start + delay + dur) j t t'
        (fun x hx => hpos x (List.mem_cons_of_mem _ hx)) ht ht'

/-- C7: on one worker slot's timeline, every job performs the pacing wait of
the configured delay and only then issues its remote call — the first
dispatch happens exactly one delay after the slot starts, and consecutive
dispatches of the same slot are separated by at least the delay (the delay
plus the previous call's duration).  The timeline of a slot is a function of
its own start and call durations only, so the bound is per worker slot, not a
global rate limit: two slots with equal starts dispatch their first calls at
the same instant. -/
theorem pacing_gate_min_separation (delay start : ℚ) (ds : List ℚ)
    (hpos : ∀ x ∈ ds, 0 ≤ x) :
    (∀ i t t', (dispatchTimes delay start ds)[i]? = some t →
        (dispatchTimes delay start ds)[i + 1]? = some t' → t + delay ≤ t') ∧
      (∀ d0 rest, ds = d0 :: rest →
        (dispatchTimes delay start ds).head? = some (start + delay)) := by
  constructor
  · intro i t t' ht ht'
    exact dispatchTimes_gap delay ds start i t t' hpos ht ht'
  · intro d0 rest hds
    rw [hds]
    rfl

theorem pacing_gate_min_separation_witness :
    (∀ x ∈ [(1 : ℚ), 2], 0 ≤ x) ∧
      (dispatchTimes 1 0 [1, 2])[0]? = some 1 ∧
      (dispatchTimes 1 0 [1, 2])[1]? = some 3 ∧
      (1 : ℚ) + 1 ≤ 3 :=
  ⟨by norm_num, by norm_num [dispatchTimes], by norm_num [dispatchTimes],
    (pacing_gate_min_separation 1 0 [1, 2] (by norm_num)).1 0 1 3
      (by norm_num [dispatchTimes]) (by norm_num [dispatchTimes])⟩

/-- C10: `enrich_dataframe` never mutates the caller's DataFrame: the caller's
object after the call is exactly the input (the function assigns columns only
to `df.copy()`), and when the `peptide` column is absent it raises
`ValueError` with the caller's object still untouched; when the column is
present it returns an enriched frame without raising. -/
theorem enrich_preserves_input_frame (d : DF) (iu : Bool)
    (wI wA : ℕ → PostResult HttpResponse) (wU : ℕ → PostResult UniResponse)
    (oI oA oU : List ℕ) :
    (APIClientManager.enrich_dataframe d iu wI wA wU oI oA oU).1 = d ∧
      ("peptide" ∉ d.colNames →
        (APIClientManager.enrich_dataframe d iu wI wA wU oI oA oU).2 =
          Except.error PyExc.valueError) ∧
      ("peptide" ∈ d.colNames →
        ∃ out, (APIClientManager.enrich_dataframe d iu wI wA wU oI oA oU).2 =
          Except.ok out) := by
  by_cases hp : "peptide" ∈ d.colNames
  · refine ⟨?_, fun hn => absurd hp hn, fun _ => ?_⟩
    · simp only [APIClientManager.enrich_dataframe]
      rw [if_pos hp]
    · simp only [APIClientManager.enrich_dataframe]
      rw [if_pos hp]
      exact ⟨_, rfl⟩
  · refine ⟨?_, fun _ => ?_, fun hn => absurd hn hp⟩ <;>
      · simp only [APIClientManager.enrich_dataframe]
        rw [if_neg hp]

theorem enrich_preserves_input_frame_witness :
    "peptide" ∉ (DF.mk [("affinity_nm", [some (PVal.num 1)])]).colNames ∧
      (APIClientManager.enrich_dataframe (DF.mk [("affinity_nm", [some (PVal.num 1)])]) false
          (fun _ => PostResult.timeout) (fun _ => PostResult.timeout)
          (fun _ => PostResult.timeout) [] [] []).1 =
        DF.mk [("affinity_nm", [some (PVal.num 1)])] ∧
      (APIClientManager.enrich_dataframe (DF.mk [("affinity_nm", [some (PVal.num 1)])]) false
          (fun _ => PostResult.timeout) (fun _ => PostResult.timeout)
          (fun _ => PostResult.timeout) [] [] []).2 = Except.error PyExc.valueError :=
  ⟨by decide,
    (enrich_preserves_input_frame (DF.mk [("affinity_nm", [some (PVal.num 1)])]) false
        (fun _ => PostResult.timeout) (fun _ => PostResult.timeout)
        (fun _ => PostResult.timeout) [] [] []).1,
    (enrich_preserves_input_frame (DF.mk [("affinity_nm", [some (PVal.num 1)])]) false
        (fun _ => PostResult.timeout) (fun _ => PostResult.timeout)
        (fun _ => PostResult.timeout) [] [] []).2.1 (by decide)⟩

theorem getCol?_setCol (d : DF) (n m : String) (c : List Cell) :
    (d.setCol n c).getCol? m = if m = n then some c else d.getCol? m := by
  unfold DF.setCol DF.getCol?
  exact dget?_dinsert d.cols n m c

theorem mem_colNames_setCol (d : DF) (n m : String) (c : List Cell) :
    m ∈ (d.setCol n c).colNames ↔ m ∈ d.colNames ∨ m = n := by
  unfold DF.setCol DF.colNames
  exact mem_dkeys_dinsert d.cols n m c

theorem affinityMissing_setCol (d : DF) (n : String) (c : List Cell)
    (hne : ¬ ("affinity_nm" : String) = n) :
    affinityMissing (d.setCol n c) = affinityMissing d := by
  unfold affinityMissing
  rw [getCol?_setCol, if_neg hne]
  have hmem : ("affinity_nm" ∈ (d.setCol n c).colNames) ↔ ("affinity_nm" ∈ d.colNames) := by
    rw [mem_colNames_setCol]
    simp [hne]
  rw [decide_eq_decide.mpr hmem]

theorem peptideCol_setCol (d : DF) (n : String) (c : List Cell)
    (hne : ¬ ("peptide" : String) = n) :
    peptideCol (d.setCol n c) = peptideCol d := by
  unfold peptideCol
  rw [getCol?_setCol, if_neg hne]

theorem DF.copy_eq (d : DF) : d.copy = d := rfl

theorem mem_colNames_affinity_uni_steps (d1 : DF) (iu : Bool)
    (wA : ℕ → PostResult HttpResponse) (wU : ℕ → PostResult UniResponse)
    (oA oU : List ℕ) (haff : affinityMissing d1 = false) :
    ("iedb_affinity_nm" ∈
        (APIClientManager.enrichStepUni (APIClientManager.enrichStepAffinity d1 wA oA)
          iu wU oU).colNames) ↔
      "iedb_affinity_nm" ∈ d1.colNames := by
  unfold APIClientManager.enrichStepAffinity
  rw [haff]
  simp only [Bool.false_eq_true, if_false]
  unfold APIClientManager.enrichStepUni
  cases iu
  · simp
  · simp only [if_true]
    rw [mem_colNames_setCol, mem_colNames_setCol]
    simp

/-- C6: when the input table has a `peptide` column, `enrich_dataframe`
returns normally; the affinity service runs if and only if the input table
has no pre-existing affinity values (`affinity_nm` column absent or all its
cells missing), the UniProt lookup runs if and only if `include_uniprot` is
set, the immunogenicity service always runs, and when pre-existing affinity
values are present no `iedb_affinity_nm` column is added. -/
theorem enrich_service_selection (d : DF) (iu : Bool)
    (wI wA : ℕ → PostResult HttpResponse) (wU : ℕ → PostResult UniResponse)
    (oI oA oU : List ℕ) (hp : "peptide" ∈ d.colNames) :
    ∃ res : DF × List Service,
      APIClientManager.enrich_dataframe d iu wI wA wU oI oA oU = (d, Except.ok res) ∧
        (Service.affinity ∈ res.2 ↔ affinityMissing d = true) ∧
        (affinityMissing d = true ↔
          ("affinity_nm" ∉ d.colNames ∨
            ∀ c ∈ (d.getCol? "affinity_nm").getD [], c = none)) ∧
        (Service.uniprot ∈ res.2 ↔ iu = true) ∧
        Service.immuno ∈ res.2 ∧
        (affinityMissing d = false →
          ("iedb_affinity_nm" ∈ res.1.colNames ↔ "iedb_affinity_nm" ∈ d.colNames)) := by
  have hAffImm : affinityMissing (APIClientManager.enrichStepImmuno (DF.copy d) wI oI) =
      affinityMissing d := by
    unfold APIClientManager.enrichStepImmuno
    rw [affinityMissing_setCol _ _ _ (by decide), DF.copy_eq]
  simp only [APIClientManager.enrich_dataframe]
  rw [if_pos hp]
  refine ⟨_, rfl, ?_, ?_, ?_, ?_, ?_⟩
  · rw [hAffImm]
    cases haff : affinityMissing d <;> cases iu <;> simp
  · unfold affinityMissing
    simp [List.all_eq_true, Option.isNone_iff_eq_none]
  · cases haff : affinityMissing (APIClientManager.enrichStepImmuno (DF.copy d) wI oI) <;>
      cases iu <;> simp
  · simp
  · intro haff
    rw [mem_colNames_affinity_uni_steps _ iu wA wU oA oU (by rw [hAffImm, haff])]
    unfold APIClientManager.enrichStepImmuno
    rw [mem_colNames_setCol, DF.copy_eq]
    simp

theorem enrich_service_selection_witness :
    "peptide" ∈ (DF.mk [("peptide", [some (PVal.str "AAA")])]).colNames ∧
      ∃ res : DF × List Service,
        APIClientManager.enrich_dataframe (DF.mk [("peptide", [some (PVal.str "AAA")])]) true
            (fun _ => PostResult.timeout) (fun _ => PostResult.timeout)
            (fun _ => PostResult.timeout) [0] [0] [0] =
          (DF.mk [("peptide", [some (PVal.str "AAA")])], Except.ok res) ∧
          (Service.affinity ∈ res.2 ↔
            affinityMissing (DF.mk [("peptide", [some (PVal.str "AAA")])]) = true) ∧
          (Service.uniprot ∈ res.2 ↔ true = true) := by
  refine ⟨by decide, ?_⟩
  obtain ⟨res, h1, h2, _, h4, _, _⟩ :=
    enrich_service_selection (DF.mk [("peptide", [some (PVal.str "AAA")])]) true
      (fun _ => PostResult.timeout) (fun _ => PostResult.timeout)
      (fun _ => PostResult.timeout) [0] [0] [0] (by decide)
  exact ⟨res, h1, h2, h4⟩

/-- C8 counterexample: merging two services in the two possible orders yields
DataFrames that are not identical — the added columns appear in a different
order — so merging in any permutation does not yield an identical final
table. -/
theorem merge_order_column_order_counterexample :
    List.foldl mergeService (DF.mk [("peptide", [some (PVal.str "AAA")])])
        [SvcCol.mk "c1" [(some (PVal.str "AAA"), some (mkRat 1 1))],
          SvcCol.mk "c2" [(some (PVal.str "AAA"), some (mkRat 2 1))]] ≠
      List.foldl mergeService (DF.mk [("peptide", [some (PVal.str "AAA")])])
        [SvcCol.mk "c2" [(some (PVal.str "AAA"), some (mkRat 2 1))],
          SvcCol.mk "c1" [(some (PVal.str "AAA"), some (mkRat 1 1))]] := by
  decide

theorem getCol?_mergeService (d : DF) (s : SvcCol) (nm : String) :
    (mergeService d s).getCol? nm =
      if nm = s.name then some (mapColumn (peptideCol d) s.outcomes) else d.getCol? nm := by
  unfold mergeService
  rw [getCol?_setCol]

theorem peptideCol_mergeService (d : DF) (s : SvcCol) (hne : ¬ ("peptide" : String) = s.name) :
    peptideCol (mergeService d s) = peptideCol d := by
  unfold mergeService
  rw [peptideCol_setCol _ _ _ hne]

theorem mergeService_sim (d1 d2 : DF) (s : SvcCol)
    (hsim : ∀ nm, d1.getCol? nm = d2.getCol? nm) :
    ∀ nm, (mergeService d1 s).getCol? nm = (mergeService d2 s).getCol? nm := by
  intro nm
  rw [getCol?_mergeService, getCol?_mergeService]
  have hpep : peptideCol d1 = peptideCol d2 := by
    unfold peptideCol
    rw [hsim]
  rw [hpep]
  by_cases h : nm = s.name
  · simp [h]
  · simp [h, hsim nm]

theorem foldl_mergeService_sim (l : List SvcCol) (d1 d2 : DF)
    (hsim : ∀ nm, d1.getCol? nm = d2.getCol? nm) :
    ∀ nm, (l.foldl mergeService d1).getCol? nm = (l.foldl mergeService d2).getCol? nm := by
  induction l generalizing d1 d2 with
  | nil => exact hsim
  | cons s rest ih =>
    rw [List.foldl_cons, List.foldl_cons]
    exact ih _ _ (mergeService_sim d1 d2 s hsim)

theorem mergeService_comm (d : DF) (a b : SvcCol)
    (hab : ¬ a.name = b.name) (hap : ¬ ("peptide" : String) = a.name)
    (hbp : ¬ ("peptide" : String) = b.name) :
    ∀ nm, (mergeService (mergeService d a) b).getCol? nm =
      (mergeService (mergeService d b) a).getCol? nm := by
  intro nm
  rw [getCol?_mergeService, getCol?_mergeService, getCol?_mergeService, getCol?_mergeService,
    peptideCol_mergeService d a hap, peptideCol_mergeService d b hbp]
  have hba : ¬ b.name = a.name := fun h => hab h.symm
  by_cases hnb : nm = b.name <;> by_cases hna : nm = a.name
  · exact absurd (hna.symm.trans hnb) hab
  · simp [hnb, hna, hba]
  · simp [hnb, hna, hab]
  · simp [hnb, hna]

theorem merge_perm_sim (l1 l2 : List SvcCol) (hperm : l1.Perm l2) :
    ∀ d : DF, (∀ s ∈ l1, ¬ ("peptide" : String) = s.name) →
      l1.Pairwise (fun a b => ¬ a.name = b.name) →
      ∀ nm, (l1.foldl mergeService d).getCol? nm = (l2.foldl mergeService d).getCol? nm := by
  induction hperm with
  | nil =>
    intro d _ _ nm
    rfl
  | cons x p ih =>
    intro d hpep hdist nm
    rw [List.foldl_cons, List.foldl_cons]
    exact ih (mergeService d x) (fun s hs => hpep s (List.mem_cons_of_mem _ hs))
      (List.pairwise_cons.mp hdist).2 nm
  | swap x y l =>
    intro d hpep hdist nm
    rw [List.foldl_cons, List.foldl_cons, List.foldl_cons, List.foldl_cons]
    refine foldl_mergeService_sim l _ _ ?_ nm
    have hyx : ¬ y.name = x.name :=
      (List.pairwise_cons.mp hdist).1 x (List.mem_cons_self x l)
    have hyp : ¬ ("peptide" : String) = y.name := hpep y (List.mem_cons_self _ _)
    have hxp : ¬ ("peptide" : String) = x.name :=
      hpep x (List.mem_cons_of_mem _ (List.mem_cons_self x l))
    exact mergeService_comm d y x hyx hyp hxp
  | trans p1 p2 ih1 ih2 =>
    intro d hpep hdist nm
    rw [ih1 d hpep hdist nm]
    refine ih2 d (fun s hs => hpep s (p1.mem_iff.mpr hs)) ?_ nm
    exact (p1.pairwise_iff (fun hxy h => hxy h.symm)).mp hdist

/-- C8 (amended): merging the per-service outcome maps in any permutation of
service order yields the same table up to column order — for every column
name the two results carry the same column cells (and hence the same column
set) — provided the services write pairwise distinct columns and none of them
writes the `peptide` key column; the tables need not be identical, since the
order of the added columns follows the merge order. -/
theorem merge_order_independent_amended (d : DF) (l1 l2 : List SvcCol)
    (hperm : l1.Perm l2) (hpep : ∀ s ∈ l1, ¬ ("peptide" : String) = s.name)
    (hdist : l1.Pairwise (fun a b => ¬ a.name = b.name)) :
    ∀ nm, (l1.foldl mergeService d).getCol? nm = (l2.foldl mergeService d).getCol? nm :=
  merge_perm_sim l1 l2 hperm d hpep hdist

theorem merge_order_independent_amended_witness :
    List.Perm
        [SvcCol.mk "c1" [(some (PVal.str "AAA"), some (mkRat 1 1))],
          SvcCol.mk "c2" [(some (PVal.str "AAA"), some (mkRat 2 1))]]
        [SvcCol.mk "c2" [(some (PVal.str "AAA"), some (mkRat 2 1))],
          SvcCol.mk "c1" [(some (PVal.str "AAA"), some (mkRat 1 1))]] ∧
      (List.foldl mergeService (DF.mk [("peptide", [some (PVal.str "AAA")])])
          [SvcCol.mk "c1" [(some (PVal.str "AAA"), some (mkRat 1 1))],
            SvcCol.mk "c2" [(some (PVal.str "AAA"), some (mkRat 2 1))]]).getCol? "c2" =
        (List.foldl mergeService (DF.mk [("peptide", [some (PVal.str "AAA")])])
          [SvcCol.mk "c2" [(some (PVal.str "AAA"), some (mkRat 2 1))],
            SvcCol.mk "c1" [(some (PVal.str "AAA"), some (mkRat 1 1))]]).getCol? "c2" :=
  ⟨by decide,
    merge_order_independent_amended (DF.mk [("peptide", [some (PVal.str "AAA")])])
      [SvcCol.mk "c1" [(some (PVal.str "AAA"), some (mkRat 1 1))],
        SvcCol.mk "c2" [(some (PVal.str "AAA"), some (mkRat 2 1))]]
      [SvcCol.mk "c2" [(some (PVal.str "AAA"), some (mkRat 2 1))],
        SvcCol.mk "c1" [(some (PVal.str "AAA"), some (mkRat 1 1))]]
      (by decide) (by decide) (by decide) "c2"⟩
